import Mathlib

/-!
Verification of the search/report pipeline of the bert.git-cli repository
(ghsearch and ghpr command-line tools), as a shallow embedding in Lean 4.

Python dictionaries carrying optional JSON fields are modelled with
explicit record types whose fields are wrapped in `Option` (conflating
absent and null where the code itself conflates them via dict.get) or in
the three-valued `JVal` where the code distinguishes a missing key from a
null value (dict.get with a default argument).  Python truthiness tests
on optional strings are modelled by `pyTruthy`; str.lower is modelled by
`pyLower` (character-wise lowering of the underlying character list);
Python's sorted builtin (a stable sort by key, optionally reversed while
keeping ties in input order) is modelled by `pySortedBy` via mergeSort.
-/

/-- A JSON object field as seen through a Python dict: missing key,
null value, or a value. -/
inductive JVal (α : Type) where
  | absent : JVal α
  | null : JVal α
  | val : α → JVal α
deriving DecidableEq

/-- Python dict.get(key): both a missing key and a null value yield None. -/
def JVal.get {α : Type} : JVal α → Option α
  | .absent => none
  | .null => none
  | .val a => some a

/-- Python dict.get(key, d): a missing key yields the default d, a null
value still yields None. -/
def JVal.getOr {α : Type} (d : α) : JVal α → Option α
  | .absent => some d
  | .null => none
  | .val a => some a

/-- Python truthiness of an optional string: None and the empty string
are falsy. -/
def pyTruthy (o : Option String) : Bool :=
  match o with
  | none => false
  | some s => !(s == "")

/-- Python str.lower, modelled character-wise on the underlying list. -/
def pyLower (s : String) : String :=
  String.mk (s.data.map Char.toLower)

namespace Ghpr

/-- ghpr.cli.resolve_auth_token: CLI token, then config token, then the
environment variables GHPR_TOKEN, GHE_TOKEN, GITHUB_TOKEN in that order.
The environment is passed explicitly as the last three arguments. -/
def resolve_auth_token (cli_token config_token env_ghpr env_ghe env_github : Option String) :
    Option String :=
  if pyTruthy cli_token then cli_token
  else if pyTruthy config_token then config_token
  else if pyTruthy env_ghpr then env_ghpr
  else if pyTruthy env_ghe then env_ghe
  else env_github

/-- Python str.endswith. -/
def strEndsWith (s suf : String) : Bool :=
  suf.data.isSuffixOf s.data

/-- Python s.rstrip for the slash character: drop every trailing slash. -/
def rstripSlashes (s : String) : String :=
  String.mk (s.data.reverse.dropWhile (fun c => c == '/')).reverse

/-- ghpr.cli.resolve_api_base, lines 153-157: the GHE_URL normalization.
If the URL does not already end in the /api/v3 suffix, trailing slashes
are stripped (only when one is present) and the suffix is appended. -/
def ghe_url_to_api_base (u : String) : String :=
  if strEndsWith u "/api/v3" then u
  else
    let u2 := if strEndsWith u "/" then rstripSlashes u else u
    u2 ++ "/api/v3"

/-- ghpr.cli.resolve_api_base: CLI, then config, then GHPR_API_BASE,
then GHE_URL (normalized), then the public default. -/
def resolve_api_base (cli config env_api env_ghe : Option String) : String :=
  if pyTruthy cli then cli.getD ""
  else if pyTruthy config then config.getD ""
  else if pyTruthy env_api then env_api.getD ""
  else if pyTruthy env_ghe then ghe_url_to_api_base (env_ghe.getD "")
  else "https://api.github.com"

end Ghpr

namespace Ghsearch

/-- ghsearch.cli.resolve_auth_token: CLI token, then config token, then
GHSEARCH_TOKEN, then GITHUB_TOKEN. -/
def resolve_auth_token (cli_token config_token env_ghsearch env_github : Option String) :
    Option String :=
  if pyTruthy cli_token then cli_token
  else if pyTruthy config_token then config_token
  else if pyTruthy env_ghsearch then env_ghsearch
  else env_github

/-- The license sub-object of a raw repository item; the three fields
are read with plain dict.get. -/
structure License where
  key : Option String
  name : Option String
  spdx_id : Option String
deriving DecidableEq

/-- A raw repository search item as consumed by simplify_repos.  Numeric
JSON payloads are modelled as integers; the normalizer only copies them.
A license value that is not a JSON object is treated by the code exactly
like null (isinstance check), so it is not modelled separately. -/
structure RawRepo where
  full_name : JVal String
  html_url : JVal String
  description : JVal String
  stargazers_count : JVal Int
  watchers_count : JVal Int
  forks_count : JVal Int
  language : JVal String
  archived : JVal Bool
  fork : JVal Bool
  topics : JVal (List String)
  license : JVal License
  default_branch : JVal String
  pushed_at : JVal String
  updated_at : JVal String
  created_at : JVal String
  score : JVal Int
deriving DecidableEq

/-- A normalized repository record, the element shape produced by
simplify_repos and consumed by apply_filters / apply_sorting. -/
structure SimpleRepo where
  full_name : Option String
  html_url : Option String
  description : Option String
  stars : Option Int
  watchers : Option Int
  forks : Option Int
  language : Option String
  archived : Option Bool
  fork : Option Bool
  topics : List String
  license : Option License
  default_branch : Option String
  pushed_at : Option String
  updated_at : Option String
  created_at : Option String
  score : Option Int
deriving DecidableEq

/-- ghsearch.cli.simplify_repos, body of the loop for one item. -/
def simplifyRepoItem (item : RawRepo) : SimpleRepo :=
  { full_name := item.full_name.get
  , html_url := item.html_url.get
  , description := item.description.get
  , stars := item.stargazers_count.getOr 0
  , watchers := item.watchers_count.getOr 0
  , forks := item.forks_count.getOr 0
  , language := item.language.get
  , archived := item.archived.getOr false
  , fork := item.fork.getOr false
  , topics := (item.topics.get).getD []
  , license := item.license.get
  , default_branch := item.default_branch.get
  , pushed_at := item.pushed_at.get
  , updated_at := item.updated_at.get
  , created_at := item.created_at.get
  , score := item.score.get }

/-- ghsearch.cli.simplify_repos. -/
def simplify_repos (items : List RawRepo) : List SimpleRepo :=
  items.map simplifyRepoItem

/-- ghsearch.cli.apply_filters: an optional minimum-stars filter (active
whenever min_stars is not None, stars defaulting to 0), then an optional
case-folded language filter (active when the language value is truthy,
record language defaulting to the empty string). -/
def apply_filters (repos : List SimpleRepo) (min_stars : Option Int) (language : Option String) :
    List SimpleRepo :=
  let f1 := match min_stars with
    | some m => repos.filter (fun r => decide (m ≤ (r.stars).getD 0))
    | none => repos
  if pyTruthy language then
    f1.filter (fun r => pyLower ((r.language).getD "") == pyLower (language.getD ""))
  else f1

/-- The boolean comparison used to model Python's sorted(key=k,
reverse=rev): ascending on the key, or descending when rev is set; in
both orientations ties compare as true, so a stable sort keeps them in
input order, exactly as Python guarantees. -/
def pyKeyLE {α κ : Type} [LinearOrder κ] (key : α → κ) (reverse1 : Bool) (a b : α) : Bool :=
  if reverse1 then decide (key b ≤ key a) else decide (key a ≤ key b)

/-- Python's sorted builtin with a key function and a reverse flag: a
stable sort, modelled by mergeSort with the comparison pyKeyLE. -/
def pySortedBy {α κ : Type} [LinearOrder κ] (key : α → κ) (reverse1 : Bool) (l : List α) :
    List α :=
  l.mergeSort (pyKeyLE key reverse1)

/-- ghsearch.cli.apply_sorting: an out-of-enum sort key returns the
input unchanged; stars/forks sort by the numeric key defaulting to 0,
updated/created by the timestamp string defaulting to empty; with no
sort key the input is returned as-is for ascending direction and
reversed otherwise. -/
def apply_sorting (repos : List SimpleRepo) (sort_by : Option String) (sort_direction : String) :
    List SimpleRepo :=
  let rev := !(pyLower sort_direction == "asc")
  if ¬(sort_by = none ∨ sort_by = some "stars" ∨ sort_by = some "forks"
      ∨ sort_by = some "updated" ∨ sort_by = some "created") then
    repos
  else if sort_by = some "stars" then
    pySortedBy (fun r => (r.stars).getD 0) rev repos
  else if sort_by = some "forks" then
    pySortedBy (fun r => (r.forks).getD 0) rev repos
  else if sort_by = some "updated" then
    pySortedBy (fun r => (r.updated_at).getD "") rev repos
  else if sort_by = some "created" then
    pySortedBy (fun r => (r.created_at).getD "") rev repos
  else if rev then repos.reverse
  else repos

/-- The two fields of a simplified commit record that
aggregate_commits_by_repo reads; the remaining fields of the simplified
commit mapping are never consulted by the aggregator. -/
structure CommitRec where
  repository_full_name : Option String
  repository_html_url : Option String
deriving DecidableEq

/-- One entry of the per-repository statistics mapping built by
aggregate_commits_by_repo. -/
structure RepoSummary where
  repository_full_name : String
  repository_html_url : Option String
  total_number_of_commits : Nat
deriving DecidableEq

/-- Increment the commit counter of the first (in a Python dict: the
only) summary carrying the given repository name. -/
def bumpFirst : List RepoSummary → String → List RepoSummary
  | [], _ => []
  | s0 :: rest, name =>
    if s0.repository_full_name == name then
      { s0 with total_number_of_commits := s0.total_number_of_commits + 1 } :: rest
    else s0 :: bumpFirst rest name

/-- One iteration of the aggregation loop of aggregate_commits_by_repo:
skip an item whose repository name is falsy (None or empty); otherwise
insert a zero-count summary on first sight (at the end, as Python dict
insertion order does) and increment the counter for the name. -/
def aggStep (acc : List RepoSummary) (item : CommitRec) : List RepoSummary :=
  match item.repository_full_name with
  | none => acc
  | some name =>
    if name == "" then acc
    else if acc.any (fun s0 => s0.repository_full_name == name) then
      bumpFirst acc name
    else
      bumpFirst (acc ++ [{ repository_full_name := name
                         , repository_html_url := item.repository_html_url
                         , total_number_of_commits := 0 }]) name

/-- ghsearch.cli.aggregate_commits_by_repo: fold the commit records into
per-repository summaries, in first-seen order. -/
def aggregate_commits_by_repo (items : List CommitRec) : List RepoSummary :=
  items.foldl aggStep []

/-- Specification helper: the commit record carries exactly this
repository name. -/
def itemNamed (n : String) (c : CommitRec) : Bool :=
  c.repository_full_name == some n

/-- Specification helper: how many commit records carry this name. -/
def cntNamed (n : String) (items : List CommitRec) : Nat :=
  items.countP (itemNamed n)

/-- Specification helper: the first summary carrying this name. -/
def findSum (n : String) (l : List RepoSummary) : Option RepoSummary :=
  l.find? (fun s0 => s0.repository_full_name == n)

/-- The JSON body of one search page as read by the paginator. -/
structure Payload (α : Type) where
  total_count : Option Int
  incomplete_results : Option Bool
  items : Option (List α)
deriving DecidableEq

/-- Outcome of one page request: a raised transport error, or a response
with an HTTP status, a parsed body, and whether the response's
pagination-link metadata carries a next relation. -/
inductive FetchResult (α : Type) where
  | err : FetchResult α
  | ok : Nat → Payload α → Bool → FetchResult α
deriving DecidableEq

/-- The loop state of the paginator: accumulated items plus the captured
metadata. -/
structure SearchState (α : Type) where
  items : List α
  total_count : Option Int
  incomplete_results : Bool
deriving DecidableEq

/-- The aggregate mapping returned by a search function. -/
structure SearchRes (α : Type) where
  query : String
  total_count : Int
  incomplete_results : Bool
  items : List α
deriving DecidableEq

/-- The pagination loop shared by search_repositories, search_code_async
and search_commits_async (their loop bodies are character-identical in
the source): for each page while budget remains, fetch the page; stop on
a transport error or an HTTP status of 400 or more; capture total_count
and incomplete_results from the body whenever total_count is still None;
stop on an empty item list; append the page's items; then stop once 1000
items are accumulated or the response lacks a next link.  Returns the
final state together with the number of pages fetched. -/
def fetchPages {α : Type} (fetch : Nat → FetchResult α) :
    Nat → Nat → SearchState α → SearchState α × Nat
  | _, 0, st => (st, 0)
  | page, rem + 1, st =>
    match fetch page with
    | .err => (st, 1)
    | .ok status payload hasNext =>
      if 400 ≤ status then (st, 1)
      else
        let st1 := if st.total_count.isNone then
            { st with total_count := payload.total_count
                    , incomplete_results := (payload.incomplete_results).getD false }
          else st
        let pageItems := (payload.items).getD []
        if pageItems.isEmpty then (st1, 1)
        else
          let st2 := { st1 with items := st1.items ++ pageItems }
          if 1000 ≤ st2.items.length || !hasNext then (st2, 1)
          else
            let r := fetchPages fetch (page + 1) rem st2
            (r.1, r.2 + 1)

/-- The loop state before the first page. -/
def initState {α : Type} : SearchState α :=
  { items := [], total_count := none, incomplete_results := false }

/-- Construction of the returned Search Result mapping from the final
loop state: total_count falls back to the accumulated item count when it
was never captured, and the item sequence is truncated to 1000 here and
only here. -/
def searchResultOf {α : Type} (query : String) (st : SearchState α) : SearchRes α :=
  { query := query
  , total_count := (st.total_count).getD (st.items.length : Int)
  , incomplete_results := st.incomplete_results
  , items := st.items.take 1000 }

/-- ghsearch.cli.search_repositories, with the page fetcher passed
explicitly in place of the HTTP session. -/
def search_repositories {α : Type} (fetch : Nat → FetchResult α) (query : String)
    (max_pages : Nat) : SearchRes α :=
  searchResultOf query (fetchPages fetch 1 max_pages initState).1

/-- Query construction of search_code_async: qualifiers appended with a
single leading space each, in the fixed order repo, language, path, only
when the corresponding filter is truthy. -/
def build_code_query (query : String) (repo language path : Option String) : String :=
  let q1 := if pyTruthy repo then query ++ " repo:" ++ repo.getD "" else query
  let q2 := if pyTruthy language then q1 ++ " language:" ++ language.getD "" else q1
  if pyTruthy path then q2 ++ " path:" ++ path.getD "" else q2

/-- ghsearch.cli.search_code_async, with the page fetcher passed
explicitly. -/
def search_code_async {α : Type} (fetch : Nat → FetchResult α) (query : String)
    (repo language path : Option String) (max_pages : Nat) : SearchRes α :=
  searchResultOf (build_code_query query repo language path)
    (fetchPages fetch 1 max_pages initState).1

/-- Query construction of search_commits_async: repo, author, committer
qualifiers in that fixed order. -/
def build_commits_query (query : String) (repo author committer : Option String) : String :=
  let q1 := if pyTruthy repo then query ++ " repo:" ++ repo.getD "" else query
  let q2 := if pyTruthy author then q1 ++ " author:" ++ author.getD "" else q1
  if pyTruthy committer then q2 ++ " committer:" ++ committer.getD "" else q2

/-- ghsearch.cli.search_commits_async, with the page fetcher passed
explicitly. -/
def search_commits_async {α : Type} (fetch : Nat → FetchResult α) (query : String)
    (repo author committer : Option String) (max_pages : Nat) : SearchRes α :=
  searchResultOf (build_commits_query query repo author committer)
    (fetchPages fetch 1 max_pages initState).1

/-- The items carried by one fetched page (empty for an error). -/
def stepItems {α : Type} : FetchResult α → List α
  | .err => []
  | .ok _ p _ => (p.items).getD []

/-- A page fetch at which the loop continues: success status, a
nonempty item list, and a next link. -/
def goodStep {α : Type} (fr : FetchResult α) : Prop :=
  ∃ s p, fr = .ok s p true ∧ s < 400 ∧ (p.items).getD [] ≠ ([] : List α)

/-- A page fetch at which the loop stops with a logged error: a
transport failure or an HTTP status of 400 or more. -/
def failStep {α : Type} (fr : FetchResult α) : Prop :=
  fr = .err ∨ ∃ s p nx, fr = .ok s p nx ∧ 400 ≤ s

end Ghsearch

/-- A reference record whose only populated field is a star count, used
as a concrete input by several witnesses. -/
def starRepo (n : Int) : Ghsearch.SimpleRepo :=
  { full_name := none, html_url := none, description := none, stars := some n
  , watchers := none, forks := none, language := none, archived := none
  , fork := none, topics := [], license := none, default_branch := none
  , pushed_at := none, updated_at := none, created_at := none, score := none }

/-- A raw repository item whose license key is present but null and
whose every other key is missing, used by the C9 witness. -/
def rawNullLicense : Ghsearch.RawRepo :=
  { full_name := .absent, html_url := .absent, description := .absent
  , stargazers_count := .absent, watchers_count := .absent, forks_count := .absent
  , language := .absent, archived := .absent, fork := .absent, topics := .absent
  , license := .null, default_branch := .absent, pushed_at := .absent
  , updated_at := .absent, created_at := .absent, score := .absent }

/-- Concrete commit records (two for owner/repo1, one for owner/repo2,
one with no repository name), used by the C8 witness. -/
def demoCommits : List Ghsearch.CommitRec :=
  [ { repository_full_name := some "owner/repo1", repository_html_url := some "u1" }
  , { repository_full_name := some "owner/repo2", repository_html_url := some "u2" }
  , { repository_full_name := some "owner/repo1", repository_html_url := some "u1b" }
  , { repository_full_name := none, repository_html_url := some "u3" } ]

/-- A fetch sequence whose first page carries a null total_count and a
true incomplete_results flag; the second page carries 42 and false. -/
def cexFetchA : Nat → Ghsearch.FetchResult Nat := fun page =>
  if page = 1 then
    .ok 200 { total_count := none, incomplete_results := some true, items := some [1] } true
  else
    .ok 200 { total_count := some 42, incomplete_results := some false, items := some [2] } false

/-- Same first page as cexFetchA, but the second page carries 7 and
true. -/
def cexFetchB : Nat → Ghsearch.FetchResult Nat := fun page =>
  if page = 1 then
    .ok 200 { total_count := none, incomplete_results := some true, items := some [1] } true
  else
    .ok 200 { total_count := some 7, incomplete_results := some true, items := some [2] } false

/-- A fetch sequence with one good page of two items followed by a
transport error on every later page, used by the C3 witness. -/
def failFetch : Nat → Ghsearch.FetchResult Nat := fun page =>
  if page = 1 then
    .ok 200 { total_count := some 5, incomplete_results := some false, items := some [10, 20] } true
  else
    .err

/-- Appending a string produces a string that ends with it. -/
theorem strEndsWith_append_self (a b : String) : Ghpr.strEndsWith (a ++ b) b = true := by
  simp only [Ghpr.strEndsWith, String.data_append, List.isSuffixOf_iff_suffix]
  exact List.suffix_append a.data b.data

/-- Claim C10: resolve_auth_token returns the highest-precedence source
that is set (truthy), in the order CLI, config, then the environment
variables in their fixed priority order, for both the ghpr variant
(GHPR_TOKEN, GHE_TOKEN, GITHUB_TOKEN) and the ghsearch variant
(GHSEARCH_TOKEN, GITHUB_TOKEN); in particular with both CLI and config
tokens set it returns the CLI token, and with only the config token set
it returns the config token. -/
theorem resolve_auth_token_precedence (cli config p s f : Option String) :
    (([cli, config, p, s, f].any pyTruthy = true →
        [cli, config, p, s, f].find? pyTruthy = some (Ghpr.resolve_auth_token cli config p s f)))
    ∧ (([cli, config, p, f].any pyTruthy = true →
        [cli, config, p, f].find? pyTruthy = some (Ghsearch.resolve_auth_token cli config p f)))
    ∧ Ghpr.resolve_auth_token (some "A") (some "B") none none none = some "A"
    ∧ Ghpr.resolve_auth_token none (some "B") none none none = some "B" := by
  refine ⟨?_, ?_, by decide, by decide⟩
  · intro h
    cases h1 : pyTruthy cli <;> cases h2 : pyTruthy config <;> cases h3 : pyTruthy p <;>
      cases h4 : pyTruthy s <;> cases h5 : pyTruthy f <;>
      simp_all [Ghpr.resolve_auth_token, List.find?]
  · intro h
    cases h1 : pyTruthy cli <;> cases h2 : pyTruthy config <;> cases h3 : pyTruthy p <;>
      cases h5 : pyTruthy f <;>
      simp_all [Ghsearch.resolve_auth_token, List.find?]

/-- Witness for C10 at concrete inputs. -/
theorem resolve_auth_token_precedence_witness :
    [some "A", some "B", none, none, none].any pyTruthy = true
    ∧ [some "A", some "B", none, none, none].find? pyTruthy
        = some (Ghpr.resolve_auth_token (some "A") (some "B") none none none) :=
  ⟨by decide,
   (resolve_auth_token_precedence (some "A") (some "B") none none none).1 (by decide)⟩

/-- Claim C7: the enterprise base-URL normalization rule is idempotent:
it maps a URL without the suffix (with or without a trailing slash) to
the suffixed URL, it leaves a URL already ending in /api/v3 unchanged,
and applying it twice is the same as applying it once. -/
theorem ghe_url_normalization_idempotent (u v : String)
    (hv : Ghpr.strEndsWith v "/api/v3" = true) :
    Ghpr.ghe_url_to_api_base "https://x.com" = "https://x.com/api/v3"
    ∧ Ghpr.ghe_url_to_api_base "https://x.com/" = "https://x.com/api/v3"
    ∧ Ghpr.ghe_url_to_api_base v = v
    ∧ Ghpr.ghe_url_to_api_base (Ghpr.ghe_url_to_api_base u) = Ghpr.ghe_url_to_api_base u := by
  refine ⟨by decide, by decide, ?_, ?_⟩
  · simp [Ghpr.ghe_url_to_api_base, hv]
  · have hsuf : Ghpr.strEndsWith (Ghpr.ghe_url_to_api_base u) "/api/v3" = true := by
      by_cases h : Ghpr.strEndsWith u "/api/v3" = true
      · rw [Ghpr.ghe_url_to_api_base, if_pos h]; exact h
      · rw [Ghpr.ghe_url_to_api_base, if_neg h]; exact strEndsWith_append_self _ _
    generalize hw : Ghpr.ghe_url_to_api_base u = w
    rw [hw] at hsuf
    rw [Ghpr.ghe_url_to_api_base, if_pos hsuf]

/-- Witness for C7 at a concrete already-suffixed URL. -/
theorem ghe_url_normalization_idempotent_witness :
    Ghpr.strEndsWith "https://e.corp/api/v3" "/api/v3" = true
    ∧ Ghpr.ghe_url_to_api_base "https://e.corp/api/v3" = "https://e.corp/api/v3" :=
  ⟨by decide,
   (ghe_url_normalization_idempotent "u" "https://e.corp/api/v3" (by decide)).2.2.1⟩

/-- Claim C5: with no sort key, the default direction desc reverses the
input list, while asc returns it unchanged; so the default invocation
without a sort key does not preserve the input (API ranking) order. -/
theorem apply_sorting_no_key_default_reverses (repos : List Ghsearch.SimpleRepo) :
    Ghsearch.apply_sorting repos none "desc" = repos.reverse
    ∧ Ghsearch.apply_sorting repos none "asc" = repos :=
  ⟨rfl, rfl⟩

/-- pyLower of a string is empty exactly when the string is empty. -/
theorem pyLower_eq_empty_iff (s : String) : pyLower s = "" ↔ s = "" := by
  constructor
  · intro h
    have hd : s.data.map Char.toLower = ([] : List Char) := String.ext_iff.mp h
    exact String.ext (by simpa using hd)
  · intro h
    subst h
    rfl

/-- Claim C6: with min_stars set, apply_filters keeps exactly the
records whose stars value (0 when absent) is at least min_stars, in
order (it is List.filter of that predicate); with a nonempty language
filter it keeps exactly the records whose case-folded language equals
the case-folded filter value, and every surviving record has a non-null
language; the two filters compose and the composition is the same in
either application order. -/
theorem apply_filters_spec (repos : List Ghsearch.SimpleRepo) (m : Int) (lang : String)
    (hl : lang ≠ "") :
    Ghsearch.apply_filters repos (some m) none
        = repos.filter (fun r => decide (m ≤ (r.stars).getD 0))
    ∧ Ghsearch.apply_filters repos none (some lang)
        = repos.filter (fun r => pyLower ((r.language).getD "") == pyLower lang)
    ∧ (∀ r ∈ Ghsearch.apply_filters repos none (some lang),
        ∃ t, r.language = some t ∧ pyLower t = pyLower lang)
    ∧ Ghsearch.apply_filters repos (some m) (some lang)
        = Ghsearch.apply_filters (Ghsearch.apply_filters repos (some m) none) none (some lang)
    ∧ Ghsearch.apply_filters repos (some m) (some lang)
        = Ghsearch.apply_filters (Ghsearch.apply_filters repos none (some lang)) (some m) none := by
  have htr : pyTruthy (some lang) = true := by
    simpa [pyTruthy] using hl
  have hnone : Ghsearch.apply_filters repos none (some lang)
      = repos.filter (fun r => pyLower ((r.language).getD "") == pyLower lang) := by
    simp [Ghsearch.apply_filters, htr]
  have hfn : pyTruthy (none : Option String) = false := rfl
  have hcomm : ∀ (p q : Ghsearch.SimpleRepo → Bool) (l : List Ghsearch.SimpleRepo),
      (l.filter p).filter q = (l.filter q).filter p := by
    intro p q l
    rw [List.filter_filter, List.filter_filter]
    exact List.filter_congr (fun a _ => Bool.and_comm _ _)
  refine ⟨rfl, hnone, ?_, ?_, ?_⟩
  · intro r hr
    rw [hnone] at hr
    have hp := (List.mem_filter.mp hr).2
    cases hL : r.language with
    | none =>
      exfalso
      rw [hL] at hp
      simp only [Option.getD_none] at hp
      have hemp : pyLower lang = "" := (beq_iff_eq.mp hp).symm
      exact hl ((pyLower_eq_empty_iff lang).mp hemp)
    | some t =>
      refine ⟨t, rfl, ?_⟩
      rw [hL] at hp
      simpa using hp
  · simp [Ghsearch.apply_filters, htr, hfn]
  · have e1 : Ghsearch.apply_filters repos (some m) (some lang)
        = (repos.filter (fun r => decide (m ≤ (r.stars).getD 0))).filter
            (fun r => pyLower ((r.language).getD "") == pyLower lang) := by
      simp [Ghsearch.apply_filters, htr]
    have e2 : Ghsearch.apply_filters
          (Ghsearch.apply_filters repos none (some lang)) (some m) none
        = (repos.filter (fun r => pyLower ((r.language).getD "") == pyLower lang)).filter
            (fun r => decide (m ≤ (r.stars).getD 0)) := by
      simp [Ghsearch.apply_filters, htr, hfn]
    rw [e1, e2, hcomm]

/-- Witness for C6: the spec's example, min_stars 100 on star counts
100, 50, 200 keeps the first and third records in order. -/
theorem apply_filters_spec_witness :
    Ghsearch.apply_filters [starRepo 100, starRepo 50, starRepo 200] (some 100) none
      = [starRepo 100, starRepo 200] :=
  ((apply_filters_spec [starRepo 100, starRepo 50, starRepo 200] 100 "x" (by decide)).1).trans
    (by decide)

/-- The comparison pyKeyLE is transitive for either orientation. -/
theorem pyKeyLE_trans {α κ : Type} [LinearOrder κ] (key : α → κ) (rev : Bool) :
    ∀ a b c : α, Ghsearch.pyKeyLE key rev a b = true → Ghsearch.pyKeyLE key rev b c = true →
      Ghsearch.pyKeyLE key rev a c = true := by
  intro a b c hab hbc
  cases rev <;> simp only [Ghsearch.pyKeyLE, if_true, if_false, Bool.false_eq_true,
    decide_eq_true_iff] at hab hbc ⊢
  · exact le_trans hab hbc
  · exact le_trans hbc hab

/-- The comparison pyKeyLE is total for either orientation. -/
theorem pyKeyLE_total {α κ : Type} [LinearOrder κ] (key : α → κ) (rev : Bool) :
    ∀ a b : α, (Ghsearch.pyKeyLE key rev a b || Ghsearch.pyKeyLE key rev b a) = true := by
  intro a b
  cases rev <;> simp [Ghsearch.pyKeyLE] <;> exact le_total _ _

/-- Sortedness of the modelled Python sorted builtin, with respect to
its own comparison. -/
theorem pySortedBy_sorted {α κ : Type} [LinearOrder κ] (key : α → κ) (rev : Bool) (l : List α) :
    (Ghsearch.pySortedBy key rev l).Pairwise
      (fun a b => Ghsearch.pyKeyLE key rev a b = true) := by
  simp only [Ghsearch.pySortedBy]
  exact List.sorted_mergeSort (pyKeyLE_trans key rev) (pyKeyLE_total key rev) l

/-- Stability of the modelled Python sorted builtin: for every key value
the records carrying that key appear in the output exactly as they
appeared in the input. -/
theorem pySortedBy_filter_key {α κ : Type} [LinearOrder κ] (key : α → κ) (rev : Bool)
    (l : List α) (v : κ) :
    (Ghsearch.pySortedBy key rev l).filter (fun a => decide (key a = v))
      = l.filter (fun a => decide (key a = v)) := by
  have hpair : (l.filter (fun a => decide (key a = v))).Pairwise
      (fun a b => Ghsearch.pyKeyLE key rev a b = true) := by
    apply List.pairwise_of_forall_mem_list
    intro a ha b hb
    have hpa := List.mem_filter.mp ha
    have hpb := List.mem_filter.mp hb
    have hka : key a = v := of_decide_eq_true hpa.2
    have hkb : key b = v := of_decide_eq_true hpb.2
    cases rev <;> simp [Ghsearch.pyKeyLE, hka, hkb]
  have hsubl : List.Sublist (l.filter (fun a => decide (key a = v)))
      (l.mergeSort (Ghsearch.pyKeyLE key rev)) :=
    List.sublist_mergeSort (pyKeyLE_trans key rev) (pyKeyLE_total key rev) hpair
      (List.filter_sublist l)
  have h1 : (l.filter (fun a => decide (key a = v))).filter (fun a => decide (key a = v))
      = l.filter (fun a => decide (key a = v)) :=
    List.filter_eq_self.mpr (fun a ha => (List.mem_filter.mp ha).2)
  have hsub2 : List.Sublist (l.filter (fun a => decide (key a = v)))
      ((l.mergeSort (Ghsearch.pyKeyLE key rev)).filter (fun a => decide (key a = v))) := by
    rw [← h1]
    exact hsubl.filter _
  have hperm : List.Perm
      ((l.mergeSort (Ghsearch.pyKeyLE key rev)).filter (fun a => decide (key a = v)))
      (l.filter (fun a => decide (key a = v))) :=
    (List.mergeSort_perm l (Ghsearch.pyKeyLE key rev)).filter _
  simp only [Ghsearch.pySortedBy]
  exact (hsub2.eq_of_length hperm.length_eq.symm).symm

/-- Claim C4: apply_sorting by stars ascending yields non-decreasing
star order (missing stars sorting as 0) and descending non-increasing;
the sort is stable (for every key value, records with that key keep
their input order); timestamp sorting treats a missing timestamp as the
empty string; an out-of-enum sort key returns the input unchanged. -/
theorem apply_sorting_spec (repos : List Ghsearch.SimpleRepo) (s : String)
    (hs : ¬ s ∈ (["stars", "forks", "updated", "created"] : List String)) :
    ((Ghsearch.apply_sorting repos (some "stars") "asc").Pairwise
        (fun a b => (a.stars).getD 0 ≤ (b.stars).getD 0))
    ∧ ((Ghsearch.apply_sorting repos (some "stars") "desc").Pairwise
        (fun a b => (b.stars).getD 0 ≤ (a.stars).getD 0))
    ∧ (∀ v : Int, (Ghsearch.apply_sorting repos (some "stars") "asc").filter
          (fun r => decide ((r.stars).getD 0 = v))
        = repos.filter (fun r => decide ((r.stars).getD 0 = v)))
    ∧ (∀ v : Int, (Ghsearch.apply_sorting repos (some "stars") "desc").filter
          (fun r => decide ((r.stars).getD 0 = v))
        = repos.filter (fun r => decide ((r.stars).getD 0 = v)))
    ∧ ((Ghsearch.apply_sorting repos (some "updated") "asc").Pairwise
        (fun a b => (a.updated_at).getD "" ≤ (b.updated_at).getD ""))
    ∧ Ghsearch.apply_sorting repos (some s) "asc" = repos
    ∧ Ghsearch.apply_sorting repos (some s) "desc" = repos := by
  have hsa : Ghsearch.apply_sorting repos (some "stars") "asc"
      = Ghsearch.pySortedBy (fun r => (r.stars).getD 0) false repos := rfl
  have hsd : Ghsearch.apply_sorting repos (some "stars") "desc"
      = Ghsearch.pySortedBy (fun r => (r.stars).getD 0) true repos := rfl
  have hua : Ghsearch.apply_sorting repos (some "updated") "asc"
      = Ghsearch.pySortedBy (fun r => (r.updated_at).getD "") false repos := rfl
  have h1 : s ≠ "stars" := fun h => hs (by simp [h])
  have h2 : s ≠ "forks" := fun h => hs (by simp [h])
  have h3 : s ≠ "updated" := fun h => hs (by simp [h])
  have h4 : s ≠ "created" := fun h => hs (by simp [h])
  refine ⟨?_, ?_, ?_, ?_, ?_, ?_, ?_⟩
  · rw [hsa]
    exact (pySortedBy_sorted _ false repos).imp
      (fun hab => by simpa [Ghsearch.pyKeyLE] using hab)
  · rw [hsd]
    exact (pySortedBy_sorted _ true repos).imp
      (fun hab => by simpa [Ghsearch.pyKeyLE] using hab)
  · intro v
    rw [hsa]
    exact pySortedBy_filter_key _ false repos v
  · intro v
    rw [hsd]
    exact pySortedBy_filter_key _ true repos v
  · rw [hua]
    exact (pySortedBy_sorted _ false repos).imp
      (fun hab => by simpa [Ghsearch.pyKeyLE] using hab)
  · simp [Ghsearch.apply_sorting, h1, h2, h3, h4]
  · simp [Ghsearch.apply_sorting, h1, h2, h3, h4]

/-- Witness for C4 at concrete inputs: an out-of-enum sort key is a
no-op on a concrete record list. -/
theorem apply_sorting_spec_witness :
    Ghsearch.apply_sorting [starRepo 50, starRepo 100, starRepo 25] (some "language") "asc"
      = [starRepo 50, starRepo 100, starRepo 25] :=
  (apply_sorting_spec [starRepo 50, starRepo 100, starRepo 25] "language"
    (by decide)).2.2.2.2.2.1

/-- Claim C9: the repository normalizer returns a same-length list; an
item whose license field is null normalizes to a null license (not an
empty object); a missing stargazers_count normalizes stars to 0; missing
topics become the empty sequence; missing optional scalars (description,
score, and the like) become null. -/
theorem simplify_repos_spec (raws : List Ghsearch.RawRepo) (item : Ghsearch.RawRepo) :
    (Ghsearch.simplify_repos raws).length = raws.length
    ∧ (item.license = JVal.null → (Ghsearch.simplifyRepoItem item).license = none)
    ∧ (item.stargazers_count = JVal.absent → (Ghsearch.simplifyRepoItem item).stars = some 0)
    ∧ (item.topics = JVal.absent → (Ghsearch.simplifyRepoItem item).topics = [])
    ∧ (item.description = JVal.absent → (Ghsearch.simplifyRepoItem item).description = none)
    ∧ (item.score = JVal.absent → (Ghsearch.simplifyRepoItem item).score = none) := by
  refine ⟨by simp [Ghsearch.simplify_repos], ?_, ?_, ?_, ?_, ?_⟩ <;> intro h <;>
    simp [Ghsearch.simplifyRepoItem, h, JVal.get, JVal.getOr]

/-- Witness for C9 at a concrete item with a null license and all other
keys missing. -/
theorem simplify_repos_spec_witness :
    (Ghsearch.simplifyRepoItem rawNullLicense).license = none
    ∧ (Ghsearch.simplifyRepoItem rawNullLicense).stars = some 0 :=
  ⟨(simplify_repos_spec [] rawNullLicense).2.1 rfl,
   (simplify_repos_spec [] rawNullLicense).2.2.1 rfl⟩

/-- Reduction of aggStep for an absent repository name. -/
theorem aggStep_none (acc : List Ghsearch.RepoSummary) (c : Ghsearch.CommitRec)
    (hc : c.repository_full_name = none) : Ghsearch.aggStep acc c = acc := by
  simp only [Ghsearch.aggStep, hc]

/-- Reduction of aggStep for an empty repository name. -/
theorem aggStep_empty (acc : List Ghsearch.RepoSummary) (c : Ghsearch.CommitRec)
    (hc : c.repository_full_name = some "") : Ghsearch.aggStep acc c = acc := by
  simp only [Ghsearch.aggStep, hc]
  rw [if_pos]
  rfl

/-- Reduction of aggStep for a nonempty repository name. -/
theorem aggStep_some (acc : List Ghsearch.RepoSummary) (c : Ghsearch.CommitRec) (m : String)
    (hc : c.repository_full_name = some m) (hm0 : ¬ m = "") :
    Ghsearch.aggStep acc c =
      (if acc.any (fun s0 => s0.repository_full_name == m) = true then
        Ghsearch.bumpFirst acc m
      else
        Ghsearch.bumpFirst
          (acc ++ [{ repository_full_name := m
                   , repository_html_url := c.repository_html_url
                   , total_number_of_commits := 0 }]) m) := by
  simp only [Ghsearch.aggStep, hc]
  rw [if_neg (by simpa using hm0)]

/-- bumpFirst preserves repository names, hence every name-based count. -/
theorem bumpFirst_countP (acc : List Ghsearch.RepoSummary) (m n : String) :
    (Ghsearch.bumpFirst acc m).countP (fun s0 => s0.repository_full_name == n)
      = acc.countP (fun s0 => s0.repository_full_name == n) := by
  induction acc with
  | nil => rfl
  | cons s0 rest ih =>
    by_cases h : (s0.repository_full_name == m) = true
    · simp [Ghsearch.bumpFirst, h, List.countP_cons]
    · simp [Ghsearch.bumpFirst, h, List.countP_cons, ih]

/-- bumpFirst on one name does not change the first summary found for a
different name. -/
theorem bumpFirst_find_other (acc : List Ghsearch.RepoSummary) (m n : String) (hmn : m ≠ n) :
    Ghsearch.findSum n (Ghsearch.bumpFirst acc m) = Ghsearch.findSum n acc := by
  induction acc with
  | nil => rfl
  | cons s0 rest ih =>
    cases hB : (s0.repository_full_name == m) with
    | true =>
      have hs0m : s0.repository_full_name = m := by simpa using hB
      have hBn : (s0.repository_full_name == n) = false := by simp [hs0m, hmn]
      simp [Ghsearch.bumpFirst, Ghsearch.findSum, List.find?, hB, hBn]
    | false =>
      cases hBn : (s0.repository_full_name == n) with
      | true => simp [Ghsearch.bumpFirst, Ghsearch.findSum, List.find?, hB, hBn]
      | false =>
        simp only [Ghsearch.bumpFirst, Ghsearch.findSum, List.find?, hB, hBn] at ih ⊢
        simpa [hBn] using ih

/-- bumpFirst on a name increments exactly the first summary found for
that name. -/
theorem bumpFirst_find_self (acc : List Ghsearch.RepoSummary) (n : String) :
    Ghsearch.findSum n (Ghsearch.bumpFirst acc n)
      = (Ghsearch.findSum n acc).map
          (fun s0 => { s0 with total_number_of_commits := s0.total_number_of_commits + 1 }) := by
  induction acc with
  | nil => rfl
  | cons s0 rest ih =>
    cases hB : (s0.repository_full_name == n) with
    | true => simp [Ghsearch.bumpFirst, Ghsearch.findSum, List.find?, hB]
    | false =>
      simp only [Ghsearch.bumpFirst, Ghsearch.findSum, List.find?, hB] at ih ⊢
      simpa [hB] using ih

/-- Two distinct members both satisfying a predicate force a count of at
least two. -/
theorem two_le_countP {β : Type} (p : β → Bool) (a b : β) (hab : a ≠ b)
    (hpa : p a = true) (hpb : p b = true) :
    ∀ l : List β, a ∈ l → b ∈ l → 2 ≤ l.countP p := by
  intro l
  induction l with
  | nil => intro ha; cases ha
  | cons x xs ih =>
    intro ha hb
    rcases List.mem_cons.mp ha with h1 | h1
    · rcases List.mem_cons.mp hb with h2 | h2
      · exact absurd (h1.trans h2.symm) hab
      · subst h1
        have h3 : 0 < xs.countP p := List.countP_pos_iff.mpr ⟨b, h2, hpb⟩
        rw [List.countP_cons, if_pos hpa]
        omega
    · rcases List.mem_cons.mp hb with h2 | h2
      · subst h2
        have h3 : 0 < xs.countP p := List.countP_pos_iff.mpr ⟨a, h1, hpa⟩
        rw [List.countP_cons, if_pos hpb]
        omega
      · have h3 := ih h1 h2
        rw [List.countP_cons]
        omega

/-- The central characterization of the aggregation fold: relative to an
accumulator, the first summary found for a (truthy) name after folding
carries the accumulated count plus the number of matching items, and the
URL of the accumulator entry or else of the first matching item. -/
theorem agg_find (n : String) (hn : n ≠ "") :
    ∀ (items : List Ghsearch.CommitRec) (acc : List Ghsearch.RepoSummary),
      (∀ s0, Ghsearch.findSum n acc = some s0 →
        Ghsearch.findSum n (items.foldl Ghsearch.aggStep acc)
          = some { repository_full_name := s0.repository_full_name
                 , repository_html_url := s0.repository_html_url
                 , total_number_of_commits :=
                     s0.total_number_of_commits + Ghsearch.cntNamed n items })
      ∧ (Ghsearch.findSum n acc = none →
        Ghsearch.findSum n (items.foldl Ghsearch.aggStep acc)
          = (items.find? (Ghsearch.itemNamed n)).map
              (fun c => { repository_full_name := n
                        , repository_html_url := c.repository_html_url
                        , total_number_of_commits := Ghsearch.cntNamed n items })) := by
  intro items
  induction items with
  | nil =>
    intro acc
    constructor
    · intro s0 h
      rw [List.foldl_nil, h]
      simp [Ghsearch.cntNamed]
    · intro h
      rw [List.foldl_nil, h]
      simp
  | cons c items ih =>
    intro acc
    rcases hc : c.repository_full_name with _ | m
    · have hskip : Ghsearch.aggStep acc c = acc := aggStep_none acc c hc
      have hnamed : Ghsearch.itemNamed n c = false := by
        simp [Ghsearch.itemNamed, hc]
      constructor
      · intro s0 h
        rw [List.foldl_cons, hskip, (ih acc).1 s0 h]
        simp [Ghsearch.cntNamed, List.countP_cons, hnamed]
      · intro h
        rw [List.foldl_cons, hskip, (ih acc).2 h]
        simp [Ghsearch.cntNamed, List.countP_cons, hnamed, List.find?, hc, Ghsearch.itemNamed]
    · by_cases hm0 : m = ""
      · subst hm0
        have hskip : Ghsearch.aggStep acc c = acc := aggStep_empty acc c hc
        have hnamed : Ghsearch.itemNamed n c = false := by
          simp [Ghsearch.itemNamed, hc]
          exact fun h => hn h.symm
        constructor
        · intro s0 h
          rw [List.foldl_cons, hskip, (ih acc).1 s0 h]
          simp [Ghsearch.cntNamed, List.countP_cons, hnamed]
        · intro h
          rw [List.foldl_cons, hskip, (ih acc).2 h]
          simp [Ghsearch.cntNamed, List.countP_cons, hnamed, List.find?]
      · by_cases hmn : m = n
        · subst hmn
          have hnamed : Ghsearch.itemNamed m c = true := by
            simp [Ghsearch.itemNamed, hc]
          by_cases hany : acc.any (fun s0 => s0.repository_full_name == m) = true
          · have hstep : Ghsearch.aggStep acc c = Ghsearch.bumpFirst acc m := by
              rw [aggStep_some acc c m hc hm0, if_pos hany]
            constructor
            · intro s0 h
              have hfb : Ghsearch.findSum m (Ghsearch.bumpFirst acc m)
                  = some { repository_full_name := s0.repository_full_name
                         , repository_html_url := s0.repository_html_url
                         , total_number_of_commits := s0.total_number_of_commits + 1 } := by
                rw [bumpFirst_find_self acc m, h]
                rfl
              rw [List.foldl_cons, hstep, (ih (Ghsearch.bumpFirst acc m)).1 _ hfb]
              simp [Ghsearch.cntNamed, List.countP_cons, hnamed]
              omega
            · intro h
              obtain ⟨x, hx, hpx⟩ := List.any_eq_true.mp hany
              rw [Ghsearch.findSum, List.find?_eq_none] at h
              exact absurd hpx (h x hx)
          · have hstep : Ghsearch.aggStep acc c
                = Ghsearch.bumpFirst
                    (acc ++ [{ repository_full_name := m
                             , repository_html_url := c.repository_html_url
                             , total_number_of_commits := 0 }]) m := by
              rw [aggStep_some acc c m hc hm0, if_neg hany]
            have hnone : Ghsearch.findSum m acc = none := by
              rw [Ghsearch.findSum, List.find?_eq_none]
              intro x hx hpx
              exact hany (List.any_eq_true.mpr ⟨x, hx, hpx⟩)
            constructor
            · intro s0 h
              rw [hnone] at h
              cases h
            · intro _
              have happ : Ghsearch.findSum m
                  (acc ++ [{ repository_full_name := m
                           , repository_html_url := c.repository_html_url
                           , total_number_of_commits := 0 }])
                  = some { repository_full_name := m
                         , repository_html_url := c.repository_html_url
                         , total_number_of_commits := 0 } := by
                rw [Ghsearch.findSum, List.find?_append]
                rw [show List.find? (fun s0 => s0.repository_full_name == m) acc = none
                  from hnone]
                simp [List.find?]
              have hfb : Ghsearch.findSum m
                  (Ghsearch.bumpFirst
                    (acc ++ [{ repository_full_name := m
                             , repository_html_url := c.repository_html_url
                             , total_number_of_commits := 0 }]) m)
                  = some { repository_full_name := m
                         , repository_html_url := c.repository_html_url
                         , total_number_of_commits := 1 } := by
                rw [bumpFirst_find_self, happ]
                rfl
              rw [List.foldl_cons, hstep, (ih _).1 _ hfb]
              rw [show (c :: items).find? (Ghsearch.itemNamed m) = some c from by
                simp [List.find?, hnamed]]
              simp [Ghsearch.cntNamed, List.countP_cons, hnamed]
              omega
        · have hnamed : Ghsearch.itemNamed n c = false := by
            simp [Ghsearch.itemNamed, hc, hmn]
          have hstep : Ghsearch.findSum n (Ghsearch.aggStep acc c) = Ghsearch.findSum n acc := by
            rw [aggStep_some acc c m hc hm0]
            by_cases hany : acc.any (fun s0 => s0.repository_full_name == m) = true
            · rw [if_pos hany]
              exact bumpFirst_find_other acc m n hmn
            · rw [if_neg hany, bumpFirst_find_other _ m n hmn]
              rw [Ghsearch.findSum, Ghsearch.findSum, List.find?_append]
              have hone : List.find? (fun s0 : Ghsearch.RepoSummary => s0.repository_full_name == n)
                  [{ repository_full_name := m
                   , repository_html_url := c.repository_html_url
                   , total_number_of_commits := 0 }] = none := by
                simp [List.find?, show (m == n) = false from by simp [hmn]]
              rw [hone, Option.or_none]
          constructor
          · intro s0 h
            have h' : Ghsearch.findSum n (Ghsearch.aggStep acc c) = some s0 := by
              rw [hstep]; exact h
            rw [List.foldl_cons, (ih _).1 s0 h']
            simp [Ghsearch.cntNamed, List.countP_cons, hnamed]
          · intro h
            have h' : Ghsearch.findSum n (Ghsearch.aggStep acc c) = none := by
              rw [hstep]; exact h
            rw [List.foldl_cons, (ih _).2 h']
            rw [show (c :: items).find? (Ghsearch.itemNamed n) = items.find? (Ghsearch.itemNamed n)
              from by simp [List.find?, hnamed]]
            simp [Ghsearch.cntNamed, List.countP_cons, hnamed]

/-- The aggregation fold never creates two summaries with the same
name. -/
theorem agg_countP_le_one (n : String) :
    ∀ (items : List Ghsearch.CommitRec) (acc : List Ghsearch.RepoSummary),
      acc.countP (fun s0 => s0.repository_full_name == n) ≤ 1 →
      (items.foldl Ghsearch.aggStep acc).countP (fun s0 => s0.repository_full_name == n) ≤ 1 := by
  intro items
  induction items with
  | nil =>
    intro acc h
    simpa using h
  | cons c items ih =>
    intro acc h
    rw [List.foldl_cons]
    apply ih
    rcases hc : c.repository_full_name with _ | m
    · rw [aggStep_none acc c hc]
      exact h
    · by_cases hm0 : m = ""
      · subst hm0
        rw [aggStep_empty acc c hc]
        exact h
      · rw [aggStep_some acc c m hc hm0]
        by_cases hany : acc.any (fun s0 => s0.repository_full_name == m) = true
        · rw [if_pos hany, bumpFirst_countP]
          exact h
        · rw [if_neg hany, bumpFirst_countP, List.countP_append]
          by_cases hmn : m = n
          · subst hmn
            have h0 : acc.countP (fun s0 => s0.repository_full_name == m) = 0 := by
              rw [List.countP_eq_zero]
              intro a ha hpa
              exact hany (List.any_eq_true.mpr ⟨a, ha, hpa⟩)
            have h1 : List.countP (fun s0 : Ghsearch.RepoSummary => s0.repository_full_name == m)
                [{ repository_full_name := m
                 , repository_html_url := c.repository_html_url
                 , total_number_of_commits := 0 }] = 1 := by
              simp [List.countP_cons]
            omega
          · have h1 : List.countP (fun s0 : Ghsearch.RepoSummary => s0.repository_full_name == n)
                [{ repository_full_name := m
                 , repository_html_url := c.repository_html_url
                 , total_number_of_commits := 0 }] = 0 := by
              simp [List.countP_cons, show (m == n) = false from by simp [hmn]]
            omega

/-- Records with an absent repository name are identity steps of the
aggregation fold. -/
theorem agg_skip_none :
    ∀ (items : List Ghsearch.CommitRec) (acc : List Ghsearch.RepoSummary),
      (items.filter (fun c => c.repository_full_name.isSome)).foldl Ghsearch.aggStep acc
        = items.foldl Ghsearch.aggStep acc := by
  intro items
  induction items with
  | nil => intro acc; rfl
  | cons c items ih =>
    intro acc
    rcases hc : c.repository_full_name with _ | m
    · rw [List.filter_cons_of_neg (by simp [hc]), List.foldl_cons, aggStep_none acc c hc]
      exact ih acc
    · rw [List.filter_cons_of_pos (by simp [hc]), List.foldl_cons, List.foldl_cons]
      exact ih _

/-- Claim C8: aggregate_commits_by_repo yields exactly one summary per
distinct (truthy) repository name appearing in the input, carrying that
name, the html_url of the first commit seen for that repository, and a
count equal to the number of input records with that name; records
whose repository name is absent contribute to no summary (folding the
input with them removed gives the same result) and cause no error. -/
theorem aggregate_commits_by_repo_spec (items : List Ghsearch.CommitRec) (n : String)
    (hn : n ≠ "") :
    ((Ghsearch.aggregate_commits_by_repo items).countP
        (fun s0 => s0.repository_full_name == n)
      = if Ghsearch.cntNamed n items = 0 then 0 else 1)
    ∧ (∀ s0 ∈ Ghsearch.aggregate_commits_by_repo items, s0.repository_full_name = n →
        s0.total_number_of_commits = Ghsearch.cntNamed n items
        ∧ ∃ c, items.find? (Ghsearch.itemNamed n) = some c
            ∧ s0.repository_html_url = c.repository_html_url)
    ∧ Ghsearch.aggregate_commits_by_repo
        (items.filter (fun c => c.repository_full_name.isSome))
      = Ghsearch.aggregate_commits_by_repo items := by
  have hmain : Ghsearch.findSum n (Ghsearch.aggregate_commits_by_repo items)
      = (items.find? (Ghsearch.itemNamed n)).map
          (fun c => { repository_full_name := n
                    , repository_html_url := c.repository_html_url
                    , total_number_of_commits := Ghsearch.cntNamed n items }) :=
    (agg_find n hn items []).2 rfl
  have hle : (Ghsearch.aggregate_commits_by_repo items).countP
      (fun s0 => s0.repository_full_name == n) ≤ 1 :=
    agg_countP_le_one n items [] (by simp)
  refine ⟨?_, ?_, agg_skip_none items []⟩
  · by_cases h0 : Ghsearch.cntNamed n items = 0
    · rw [if_pos h0]
      rw [List.countP_eq_zero]
      intro s0 hs0 hps0
      have hfind : items.find? (Ghsearch.itemNamed n) = none := by
        rw [List.find?_eq_none]
        intro x hx hpx
        have : 0 < Ghsearch.cntNamed n items := List.countP_pos_iff.mpr ⟨x, hx, hpx⟩
        omega
      have hsome : (Ghsearch.findSum n (Ghsearch.aggregate_commits_by_repo items)).isSome :=
        List.find?_isSome.mpr ⟨s0, hs0, hps0⟩
      rw [hmain, hfind] at hsome
      simp at hsome
    · rw [if_neg h0]
      have hpos : 0 < Ghsearch.cntNamed n items := Nat.pos_of_ne_zero h0
      obtain ⟨c, hc, hpc⟩ := List.countP_pos_iff.mp hpos
      have hfsome : (items.find? (Ghsearch.itemNamed n)).isSome :=
        List.find?_isSome.mpr ⟨c, hc, hpc⟩
      obtain ⟨c', hc'⟩ := Option.isSome_iff_exists.mp hfsome
      have hfs : Ghsearch.findSum n (Ghsearch.aggregate_commits_by_repo items)
          = some { repository_full_name := n
                 , repository_html_url := c'.repository_html_url
                 , total_number_of_commits := Ghsearch.cntNamed n items } := by
        rw [hmain, hc']
        rfl
      have hmem := List.mem_of_find?_eq_some hfs
      have hp := List.find?_some hfs
      have hge : 0 < (Ghsearch.aggregate_commits_by_repo items).countP
          (fun s0 => s0.repository_full_name == n) :=
        List.countP_pos_iff.mpr ⟨_, hmem, hp⟩
      omega
  · intro s0 hs0 hname
    have hps0 : (s0.repository_full_name == n) = true := by simp [hname]
    have hsome : (Ghsearch.findSum n (Ghsearch.aggregate_commits_by_repo items)).isSome :=
      List.find?_isSome.mpr ⟨s0, hs0, hps0⟩
    rw [hmain] at hsome
    have hfsome : (items.find? (Ghsearch.itemNamed n)).isSome := by
      rcases hfx : items.find? (Ghsearch.itemNamed n) with _ | c
      · rw [hfx] at hsome
        simp at hsome
      · rfl
    obtain ⟨c, hc⟩ := Option.isSome_iff_exists.mp hfsome
    have hfs : Ghsearch.findSum n (Ghsearch.aggregate_commits_by_repo items)
        = some { repository_full_name := n
               , repository_html_url := c.repository_html_url
               , total_number_of_commits := Ghsearch.cntNamed n items } := by
      rw [hmain, hc]
      rfl
    have hmem := List.mem_of_find?_eq_some hfs
    have hpt := List.find?_some hfs
    by_cases hst : s0 = { repository_full_name := n
                        , repository_html_url := c.repository_html_url
                        , total_number_of_commits := Ghsearch.cntNamed n items }
    · refine ⟨by rw [hst], c, hc, by rw [hst]⟩
    · have h2 := two_le_countP (fun s0 => s0.repository_full_name == n) s0 _ hst hps0 hpt
        (Ghsearch.aggregate_commits_by_repo items) hs0 hmem
      omega

/-- Witness for C8 at concrete inputs: on two commits for owner/repo1,
one for owner/repo2 and one record without a repository name, the
summary count for owner/repo1 is exactly one. -/
theorem aggregate_commits_by_repo_spec_witness :
    (Ghsearch.aggregate_commits_by_repo demoCommits).countP
        (fun s0 => s0.repository_full_name == "owner/repo1")
      = if Ghsearch.cntNamed "owner/repo1" demoCommits = 0 then 0 else 1 :=
  (aggregate_commits_by_repo_spec demoCommits "owner/repo1" (by decide)).1

/-- Claim C1: pagination halts once the running accumulated item count
reaches 1000 (whenever two or more pages are fetched from some point,
the count after appending the first of them was still below 1000), and
the returned Search Result's item list has length at most 1000, the cap
being applied exactly once, at Search Result construction (the returned
items are the accumulated items truncated to 1000); this holds for the
synchronous repository paginator and the code-search paginator alike. -/
theorem search_item_cap (α : Type) (fetch : Nat → Ghsearch.FetchResult α) (q : String)
    (repo language path : Option String) (mp : Nat) :
    (Ghsearch.search_repositories fetch q mp).items.length ≤ 1000
    ∧ (Ghsearch.search_repositories fetch q mp).items
        = ((Ghsearch.fetchPages fetch 1 mp Ghsearch.initState).1).items.take 1000
    ∧ (Ghsearch.search_code_async fetch q repo language path mp).items.length ≤ 1000
    ∧ (Ghsearch.search_code_async fetch q repo language path mp).items
        = ((Ghsearch.fetchPages fetch 1 mp Ghsearch.initState).1).items.take 1000
    ∧ (∀ page rem st, 2 ≤ (Ghsearch.fetchPages fetch page rem st).2 →
        ∃ status payload nx, fetch page = Ghsearch.FetchResult.ok status payload nx
          ∧ st.items.length + ((payload.items).getD []).length < 1000) := by
  refine ⟨List.length_take_le _ _, rfl, List.length_take_le _ _, rfl, ?_⟩
  intro page rem st h
  cases rem with
  | zero =>
    simp [Ghsearch.fetchPages] at h
  | succ r =>
    rcases hf : fetch page with _ | ⟨status, payload, nx⟩
    · rw [show Ghsearch.fetchPages fetch page (r + 1) st = (st, 1) from by
        simp [Ghsearch.fetchPages, hf]] at h
      omega
    · refine ⟨status, payload, nx, rfl, ?_⟩
      by_cases h1 : 400 ≤ status
      · rw [show Ghsearch.fetchPages fetch page (r + 1) st = (st, 1) from by
          simp [Ghsearch.fetchPages, hf, h1]] at h
        omega
      · by_cases h2 : ((payload.items).getD [] : List α).isEmpty = true
        · simp only [Ghsearch.fetchPages, hf] at h
          rw [if_neg h1] at h
          rw [if_pos h2] at h
          omega
        · by_cases h3 : (decide (1000 ≤ (st.items ++ (payload.items).getD []).length)
              || !nx) = true
          · exfalso
            have hitems : (if st.total_count.isNone = true then
                ({ items := st.items, total_count := payload.total_count
                 , incomplete_results := payload.incomplete_results.getD false }
                  : Ghsearch.SearchState α)
              else st).items = st.items := by
              split <;> rfl
            simp only [Ghsearch.fetchPages, hf] at h
            rw [if_neg h1, if_neg h2, hitems, if_pos h3] at h
            omega
          · have h4 := h3
            rw [Bool.or_eq_true, not_or] at h4
            have h5 : ¬ (1000 ≤ (st.items ++ (payload.items).getD []).length) := by
              intro hcon
              exact h4.1 (by simpa using hcon)
            rw [List.length_append] at h5
            omega

/-- Witness for C1 at a concrete two-page fetch sequence. -/
theorem search_item_cap_witness :
    (Ghsearch.search_repositories cexFetchA "q" 3).items.length ≤ 1000
    ∧ (∃ status payload nx, cexFetchA 1 = Ghsearch.FetchResult.ok status payload nx
        ∧ (Ghsearch.initState : Ghsearch.SearchState Nat).items.length
            + ((payload.items).getD []).length < 1000) :=
  ⟨(search_item_cap Nat cexFetchA "q" none none none 3).1,
   (search_item_cap Nat cexFetchA "q" none none none 3).2.2.2.2 1 5 Ghsearch.initState
     (by decide)⟩

/-- Once total_count has been captured, the rest of the pagination loop
never touches total_count or incomplete_results again. -/
theorem fetchPages_keeps_meta (α : Type) (fetch : Nat → Ghsearch.FetchResult α) :
    ∀ (rem page : Nat) (st : Ghsearch.SearchState α) (t : Int),
      st.total_count = some t →
      ((Ghsearch.fetchPages fetch page rem st).1).total_count = some t
      ∧ ((Ghsearch.fetchPages fetch page rem st).1).incomplete_results
          = st.incomplete_results := by
  intro rem
  induction rem with
  | zero =>
    intro page st t h
    exact ⟨h, rfl⟩
  | succ r ih =>
    intro page st t h
    have hiN : st.total_count.isNone = true → False := by
      rw [h]
      simp
    rcases hf : fetch page with _ | ⟨status, payload, nx⟩
    · simp only [Ghsearch.fetchPages, hf]
      exact ⟨h, by simp⟩
    · simp only [Ghsearch.fetchPages, hf]
      by_cases h1 : 400 ≤ status
      · rw [if_pos h1]
        exact ⟨h, rfl⟩
      · rw [if_neg h1, if_neg hiN]
        by_cases h2 : ((payload.items).getD [] : List α).isEmpty = true
        · rw [if_pos h2]
          exact ⟨h, rfl⟩
        · rw [if_neg h2]
          by_cases h3 : (decide (1000 ≤ (st.items ++ (payload.items).getD []).length)
              || !nx) = true
          · rw [if_pos h3]
            exact ⟨h, rfl⟩
          · rw [if_neg h3]
            exact ih (page + 1)
              { items := st.items ++ (payload.items).getD []
              , total_count := st.total_count
              , incomplete_results := st.incomplete_results } t h

/-- Counterexample to C2 as stated: two fetch sequences with identical
first pages (whose body carries a null total_count and a true
incomplete_results) produce Search Results with different total_count
values taken from their second pages, and the first page's true
incomplete_results flag is overwritten; so the two fields are not taken
from the first page's response body only. -/
theorem search_meta_counterexample :
    cexFetchA 1 = cexFetchB 1
    ∧ (Ghsearch.search_repositories cexFetchA "q" 2).total_count = 42
    ∧ (Ghsearch.search_repositories cexFetchB "q" 2).total_count = 7
    ∧ (Ghsearch.search_repositories cexFetchA "q" 2).incomplete_results = false
    ∧ (match cexFetchA 1 with
        | Ghsearch.FetchResult.ok _ p _ => p.incomplete_results
        | Ghsearch.FetchResult.err => none) = some true := by
  decide

/-- Claim C2 as amended: whenever the first page succeeds and its body
carries a non-null total_count, the returned total_count and
incomplete_results come from that first page and the values carried by
every later page are ignored, for the synchronous paginator and the
commit-search paginator alike.  (When page 1 carries a null or missing
total_count, the capture re-runs on later pages.) -/
theorem search_meta_first_capture (α : Type) (fetch : Nat → Ghsearch.FetchResult α)
    (q : String) (mp status : Nat) (payload : Ghsearch.Payload α) (nx : Bool) (t : Int)
    (h1 : fetch 1 = Ghsearch.FetchResult.ok status payload nx) (hst : status < 400)
    (ht : payload.total_count = some t) :
    (Ghsearch.search_repositories fetch q (mp + 1)).total_count = t
    ∧ (Ghsearch.search_repositories fetch q (mp + 1)).incomplete_results
        = (payload.incomplete_results).getD false
    ∧ (Ghsearch.search_commits_async fetch q none none none (mp + 1)).total_count = t
    ∧ (Ghsearch.search_commits_async fetch q none none none (mp + 1)).incomplete_results
        = (payload.incomplete_results).getD false := by
  have hmain : ((Ghsearch.fetchPages fetch 1 (mp + 1) Ghsearch.initState).1).total_count = some t
      ∧ ((Ghsearch.fetchPages fetch 1 (mp + 1) Ghsearch.initState).1).incomplete_results
        = (payload.incomplete_results).getD false := by
    simp only [Ghsearch.fetchPages, h1]
    rw [if_neg (by omega : ¬ 400 ≤ status)]
    rw [if_pos
      (show (Ghsearch.initState : Ghsearch.SearchState α).total_count.isNone = true from rfl)]
    by_cases h2 : ((payload.items).getD [] : List α).isEmpty = true
    · rw [if_pos h2]
      exact ⟨ht, rfl⟩
    · rw [if_neg h2]
      by_cases h3 : (decide (1000 ≤
          (({ items := (Ghsearch.initState : Ghsearch.SearchState α).items
            , total_count := payload.total_count
            , incomplete_results := (payload.incomplete_results).getD false }
              : Ghsearch.SearchState α).items ++ (payload.items).getD []).length) || !nx) = true
      · rw [if_pos h3]
        exact ⟨ht, rfl⟩
      · rw [if_neg h3]
        refine ⟨(fetchPages_keeps_meta α fetch mp 2 _ t ht).1,
          ((fetchPages_keeps_meta α fetch mp 2 _ t ht).2).trans rfl⟩
  exact ⟨by simp [Ghsearch.search_repositories, Ghsearch.searchResultOf, hmain.1],
    hmain.2,
    by simp [Ghsearch.search_commits_async, Ghsearch.searchResultOf, hmain.1],
    hmain.2⟩

/-- Witness for the amended C2 at a concrete fetch sequence. -/
theorem search_meta_first_capture_witness :
    (Ghsearch.search_repositories failFetch "q" 3).total_count = 5 :=
  (search_meta_first_capture Nat failFetch "q" 2 200
    { total_count := some 5, incomplete_results := some false, items := some [10, 20] }
    true 5 rfl (by omega) rfl).1

/-- If the pages from some point on are k good pages followed by a
failing page, and the accumulated size stays below the cap, the loop
consumes exactly the good pages' items and stops at the failure keeping
what was accumulated. -/
theorem fetchPages_stop_at_fail (α : Type) (fetch : Nat → Ghsearch.FetchResult α) :
    ∀ (k page rem : Nat) (st : Ghsearch.SearchState α),
      Ghsearch.failStep (fetch (page + k)) →
      (∀ i, i < k → Ghsearch.goodStep (fetch (page + i))) →
      st.items.length
        + (((List.range' page k).map (fun q0 => Ghsearch.stepItems (fetch q0))).flatten).length
        < 1000 →
      k + 1 ≤ rem →
      ((Ghsearch.fetchPages fetch page rem st).1).items
        = st.items
          ++ ((List.range' page k).map (fun q0 => Ghsearch.stepItems (fetch q0))).flatten := by
  intro k
  induction k with
  | zero =>
    intro page rem st hfail hgood hsize hrem
    obtain ⟨r, rfl⟩ : ∃ r, rem = r + 1 := ⟨rem - 1, by omega⟩
    rcases hfail with hferr | ⟨s, p, nx, hfok, hs⟩
    · rw [Nat.add_zero] at hferr
      simp [Ghsearch.fetchPages, hferr]
    · rw [Nat.add_zero] at hfok
      simp only [Ghsearch.fetchPages, hfok]
      rw [if_pos hs]
      simp
  | succ k ih =>
    intro page rem st hfail hgood hsize hrem
    obtain ⟨r, rfl⟩ : ∃ r, rem = r + 1 := ⟨rem - 1, by omega⟩
    obtain ⟨s, p, hfok, hs, hne⟩ := hgood 0 (by omega)
    rw [Nat.add_zero] at hfok
    have hstepit : Ghsearch.stepItems (fetch page) = (p.items).getD [] := by
      rw [hfok]
      rfl
    have hdec : ((List.range' page (k + 1)).map
          (fun q0 => Ghsearch.stepItems (fetch q0))).flatten
        = (p.items).getD []
          ++ ((List.range' (page + 1) k).map
              (fun q0 => Ghsearch.stepItems (fetch q0))).flatten := by
      rw [List.range'_succ, List.map_cons, List.flatten_cons, hstepit]
    have hitems : (if st.total_count.isNone = true then
        ({ items := st.items, total_count := p.total_count
         , incomplete_results := (p.incomplete_results).getD false }
          : Ghsearch.SearchState α)
      else st).items = st.items := by
      split <;> rfl
    rw [hdec, List.length_append] at hsize
    have hlen : ¬ (1000 ≤ st.items.length + ((p.items).getD [] : List α).length) := by
      omega
    simp only [Ghsearch.fetchPages, hfok]
    rw [if_neg (by omega : ¬ 400 ≤ s)]
    rw [hitems]
    rw [if_neg (show ¬ (((p.items).getD [] : List α).isEmpty = true) from by
      simpa [List.isEmpty_iff] using hne)]
    rw [if_neg (show ¬ ((decide (1000 ≤ (st.items ++ (p.items).getD []).length) || !true) = true)
      from by
        simp only [Bool.not_true, Bool.or_false, decide_eq_true_eq, List.length_append]
        exact hlen)]
    have hfail' : Ghsearch.failStep (fetch (page + 1 + k)) := by
      rw [show page + 1 + k = page + (k + 1) from by omega]
      exact hfail
    have hgood' : ∀ i, i < k → Ghsearch.goodStep (fetch (page + 1 + i)) := by
      intro i hi
      rw [show page + 1 + i = page + (i + 1) from by omega]
      exact hgood (i + 1) (by omega)
    have hsize' : (st.items ++ (p.items).getD []).length
        + (((List.range' (page + 1) k).map
            (fun q0 => Ghsearch.stepItems (fetch q0))).flatten).length < 1000 := by
      rw [List.length_append]
      omega
    rw [ih (page + 1) r _ hfail' hgood' hsize' (by omega)]
    rw [hdec]
    simp [List.append_assoc]

/-- Claim C3: if page p is the first page at which a transport failure
or an HTTP status of 400 or more occurs (all earlier pages being good
continuation pages, with fewer than 1000 items accumulated), the
paginator stops there and returns a normal Search Result whose items
are exactly those accumulated from the pages that succeeded before the
failure; the failed page discards nothing.  (The embedding is total:
the failure path constructs an ordinary result, never an exception.) -/
theorem search_stops_on_error (α : Type) (fetch : Nat → Ghsearch.FetchResult α) (q : String)
    (mp p : Nat) (hp : 1 ≤ p) (hmp : p ≤ mp)
    (hfail : Ghsearch.failStep (fetch p))
    (hgood : ∀ i, i < p - 1 → Ghsearch.goodStep (fetch (1 + i)))
    (hsize : (((List.range' 1 (p - 1)).map
        (fun q0 => Ghsearch.stepItems (fetch q0))).flatten).length < 1000) :
    (Ghsearch.search_repositories fetch q mp).items
      = ((List.range' 1 (p - 1)).map (fun q0 => Ghsearch.stepItems (fetch q0))).flatten := by
  have hfail' : Ghsearch.failStep (fetch (1 + (p - 1))) := by
    rw [show 1 + (p - 1) = p from by omega]
    exact hfail
  have hrun := fetchPages_stop_at_fail α fetch (p - 1) 1 mp Ghsearch.initState hfail' hgood
    (by simpa [Ghsearch.initState] using hsize) (by omega)
  simp only [Ghsearch.search_repositories, Ghsearch.searchResultOf]
  rw [hrun]
  simp only [Ghsearch.initState, List.nil_append]
  exact List.take_of_length_le (by omega)

/-- Witness for C3: one good page of two items, then a transport error
on page 2; the result keeps exactly the first page's items. -/
theorem search_stops_on_error_witness :
    (Ghsearch.search_repositories failFetch "q" 3).items = [10, 20] :=
  (search_stops_on_error Nat failFetch "q" 3 2 (by omega) (by omega)
    (Or.inl rfl)
    (fun i hi => by
      have h0 : i = 0 := by omega
      subst h0
      exact ⟨200,
        { total_count := some 5, incomplete_results := some false, items := some [10, 20] },
        rfl, by omega, by decide⟩)
    (by decide)).trans (by decide)
